import Mathlib

/-!
# Verification of the RPG combat-and-progression engine

Shallow embedding of `rpg_game/character.py` and `rpg_game/inventory.py`.

Conventions of the embedding:
* Python integers become `ℤ` (they are unbounded in Python).
* Python float arithmetic (`int(x * 1.2)` in `gain_experience`) is modelled
  exactly: `EXP_MULTIPLIER` is the IEEE-754 binary64 double nearest to the
  literal `1.2`, namely `5404319552844595 / 2^52`, and `roundToDouble` is
  round-to-nearest, ties-to-even on the binary64 grid (normal range; the
  values reached by this program never approach overflow or subnormals).
* Mutating methods become functions from states to states; methods returning
  a value return a pair.
* The optional `GameLogger` collaborator is modelled by a `Bool` flag plus an
  emitted list of log events (the logger only receives messages; timestamps,
  an external-world input, are abstracted out of the event payloads).
-/

namespace RPG

/-! ## Exact model of the binary64 arithmetic used by `gain_experience` -/

/-- Round a rational to the nearest integer, ties to even
(the IEEE-754 default rounding used by Python's float arithmetic). -/
def rne (r : ℚ) : ℤ :=
  let n : ℤ := ⌊r⌋
  let f : ℚ := r - (n : ℚ)
  if f < 1/2 then n
  else if 1/2 < f then n + 1
  else if n % 2 = 0 then n else n + 1

/-- Round a rational to the nearest IEEE-754 binary64 value (normal range),
ties to even.  A positive value `q` with `2^e ≤ q < 2^(e+1)` is rounded to
a multiple of the unit in the last place `2^(e-52)`. -/
def roundToDouble (q : ℚ) : ℚ :=
  if q = 0 then 0
  else
    let a : ℚ := |q|
    let e : ℤ := Int.log 2 a
    let ulp : ℚ := 2 ^ (e - 52)
    let r : ℚ := ((rne (a / ulp) : ℤ) : ℚ) * ulp
    if q < 0 then -r else r

/-- Python's `int()` on a float: truncation toward zero. -/
def pyTrunc (q : ℚ) : ℤ := if q < 0 then -⌊-q⌋ else ⌊q⌋

/-- `LEVEL_UP_EXP = 100`, character.py line 17. -/
def LEVEL_UP_EXP : ℤ := 100

/-- `EXP_MULTIPLIER = 1.2`, character.py line 18.  The Python literal `1.2`
denotes the IEEE-754 binary64 double nearest to 6/5, which is exactly
`5404319552844595 / 2^52` (slightly below 6/5). -/
def EXP_MULTIPLIER : ℚ := 5404319552844595 / 4503599627370496

/-- The stat update `int(stat * EXP_MULTIPLIER)` performed on health and on
damage in each iteration of the level-up loop (character.py lines 142-143):
the integer is converted to binary64, multiplied by the double `1.2` with
round-to-nearest, and the product is truncated toward zero. -/
def fpMul12 (x : ℤ) : ℤ :=
  pyTrunc (roundToDouble (roundToDouble (x : ℚ) * EXP_MULTIPLIER))

/-! ## Items and Inventory (inventory.py)

Python compares items with `in` / `list.remove`, which for these classes is
object identity; the `id` field models the object identity of each `Item`,
and the `kind` field carries the subclass (`Weapon`/`Armor`/`Consumable`)
together with its extra attribute. -/

inductive ItemKind where
  | plain : ItemKind
  | weaponKind : ℤ → ItemKind
  | armorKind : ℤ → ItemKind
  | consumableKind : String → ℤ → ItemKind
deriving DecidableEq

structure Item where
  id : ℕ
  name : String
  description : String
  kind : ItemKind
deriving DecidableEq

structure Inventory where
  max_size : ℤ
  items : List Item
  equipped_weapon : Option Item
  equipped_armor : Option Item
deriving DecidableEq

/-- `Inventory.__init__` (inventory.py lines 32-36). -/
def mkInventory (max_size : ℤ) : Inventory :=
  { max_size := max_size, items := [], equipped_weapon := none, equipped_armor := none }

/-- `Inventory.add_item` (inventory.py lines 38-43). -/
def add_item (inv : Inventory) (item : Item) : Inventory × Bool :=
  if inv.max_size ≤ (inv.items.length : ℤ) then ⟨inv, false⟩
  else ⟨{ inv with items := inv.items ++ [item] }, true⟩

/-- `Inventory.remove_item` (inventory.py lines 45-50); `list.remove` deletes
the first occurrence. -/
def remove_item (inv : Inventory) (item : Item) : Inventory × Bool :=
  if item ∈ inv.items then ⟨{ inv with items := inv.items.erase item }, true⟩
  else ⟨inv, false⟩

/-- `Inventory.equip_weapon` (inventory.py lines 52-57). -/
def equip_weapon (inv : Inventory) (weapon : Item) : Inventory × Bool :=
  if weapon ∈ inv.items then ⟨{ inv with equipped_weapon := some weapon }, true⟩
  else ⟨inv, false⟩

/-- `Inventory.equip_armor` (inventory.py lines 59-64). -/
def equip_armor (inv : Inventory) (armor : Item) : Inventory × Bool :=
  if armor ∈ inv.items then ⟨{ inv with equipped_armor := some armor }, true⟩
  else ⟨inv, false⟩

/-- `Inventory.use_consumable` (inventory.py lines 66-73). -/
def use_consumable (inv : Inventory) (consumable : Item) : Inventory × Bool :=
  if consumable ∈ inv.items then ⟨{ inv with items := inv.items.erase consumable }, true⟩
  else ⟨inv, false⟩

/-! ## Character (character.py) -/

/-- The `Weapon` object auto-constructed by `Character.__init__`
(inventory.py lines 11-15 / character.py line 55). -/
structure Weapon where
  name : String
  description : String
  damage : ℤ
deriving DecidableEq

structure Character where
  name : String
  health : ℤ
  damage : ℤ
  weapon : Option Weapon
  inventory : Inventory
  level : ℤ
  experience : ℤ
deriving DecidableEq

/-- `Character.__init__` (character.py lines 28-58).  Note `self._health =
health` is NOT clamped, and the weapon is built only `if weapon_name` —
Python truthiness, so an empty-string name also yields no weapon. -/
def mkCharacter (name : String) (health : ℤ) (damage : ℤ) (weapon_name : Option String)
    (weapon_damage : ℤ) (level : ℤ) (experience : ℤ) (max_inventory_size : ℤ) : Character :=
  { name := name
    health := health
    damage := damage
    weapon := match weapon_name with
      | some wn =>
        if wn = "" then none
        else some { name := wn, description := "A " ++ wn ++ " weapon", damage := weapon_damage }
      | none => none
    inventory := mkInventory max_inventory_size
    level := level
    experience := experience }

/-- `Character.get_health` (character.py lines 61-68). -/
def get_health (c : Character) : ℤ := c.health

/-- `Character.set_health` (character.py lines 71-81). -/
def set_health (c : Character) (new_health : ℤ) : Character :=
  if new_health < 0 then { c with health := 0 } else { c with health := new_health }

/-- The expression `self.weapon.damage if self.weapon else 0`
(character.py line 97). -/
def weaponDamage : Option Weapon → ℤ
  | some w => w.damage
  | none => 0

/-- An event sent to the `GameLogger` collaborator.  `log_combat` receives
the attacker, defender and damage (its timestamp is an external input and is
abstracted away); every other call is a plain message string. -/
inductive LogEvent where
  | message : String → LogEvent
  | combat : String → String → ℤ → LogEvent
deriving DecidableEq

/-- One iteration of the level-up loop body (character.py lines 139-143):
consume 100 experience, raise the level, grow both stats through the
binary64 computation `int(stat * 1.2)`. -/
def levelUpStep (st : Character) : Character :=
  { st with
    experience := st.experience - LEVEL_UP_EXP
    level := st.level + 1
    health := fpMul12 st.health
    damage := fpMul12 st.damage }

/-- The three per-iteration log lines (character.py lines 147-150), stated on
the post-iteration state (`remaining_exp` equals the new `experience`). -/
def levelUpMsgs (st2 : Character) : List LogEvent :=
  [LogEvent.message (st2.name ++ " leveled up to level " ++ toString st2.level ++ "!"),
   LogEvent.message ("New stats: Health=" ++ toString st2.health ++ ", Damage="
     ++ toString st2.damage),
   LogEvent.message ("Remaining experience: " ++ toString st2.experience)]

/-- The `while self.experience >= LEVEL_UP_EXP` loop of `gain_experience`
(character.py lines 137-150), with explicit fuel.  Each iteration decreases
`experience` by 100 and only runs while `experience ≥ 100`, so a fuel of
`experience.toNat` is always sufficient (see `gainExpLoopF_fuel_irrel`). -/
def gainExpLoopF : ℕ → Character → Bool → Bool → Character × Bool × List LogEvent
  | 0, st, leveled_up, _ => ⟨st, leveled_up, []⟩
  | fuel+1, st, leveled_up, logger =>
    if LEVEL_UP_EXP ≤ st.experience then
      let st2 : Character := levelUpStep st
      let evs : List LogEvent := if logger then levelUpMsgs st2 else []
      let r := gainExpLoopF fuel st2 true logger
      ⟨r.1, r.2.1, evs ++ r.2.2⟩
    else ⟨st, leveled_up, []⟩

/-- The level-up loop entered with `leveled_up = False`. -/
def gainExpLoop (st : Character) (leveled_up : Bool) (logger : Bool) :
    Character × Bool × List LogEvent :=
  gainExpLoopF st.experience.toNat st leveled_up logger

/-- `Character.gain_experience` (character.py lines 118-155), with the
optional logger modelled by a `Bool` and the emitted log messages returned
as the last component. -/
def gain_experienceL (st : Character) (amount : ℤ) (logger : Bool) :
    Character × Bool × List LogEvent :=
  if amount < 0 then
    ⟨st, false,
      if logger then
        [LogEvent.message (st.name ++ " attempted to gain negative experience. Ignoring.")]
      else []⟩
  else
    let st1 : Character := { st with experience := st.experience + amount }
    let r := gainExpLoop st1 false logger
    let evs2 : List LogEvent := if logger then
        [LogEvent.message (r.1.name ++ " gained " ++ toString amount
          ++ " experience points. Total: " ++ toString r.1.experience)]
      else []
    ⟨r.1, r.2.1, r.2.2 ++ evs2⟩

/-- `gain_experience` called without a logger (the default `logger=None`):
the updated character and the returned `leveled_up` boolean. -/
def gain_experience (st : Character) (amount : ℤ) : Character × Bool :=
  ⟨(gain_experienceL st amount false).1, (gain_experienceL st amount false).2.1⟩

/-- `Character.attack` (character.py lines 84-116).  Returns the updated
attacker, the updated enemy, the returned pair `(total_damage,
enemy_defeated)`, and the emitted log events. -/
def attackL (a : Character) (enemy : Character) (logger : Bool) :
    Character × Character × ℤ × Bool × List LogEvent :=
  let total_damage := a.damage + weaponDamage a.weapon
  let current_health := get_health enemy
  let enemy2 := set_health enemy (current_health - total_damage)
  let enemy_defeated : Bool := decide (get_health enemy2 ≤ 0)
  let combat_evs : List LogEvent :=
    if logger then [LogEvent.combat a.name enemy2.name total_damage] else []
  if enemy_defeated then
    let current_exp := a.experience
    let r := gain_experienceL a LEVEL_UP_EXP logger
    let evs2 : List LogEvent := if logger then
        [LogEvent.message (a.name ++ " defeated " ++ enemy2.name ++ " and gained "
           ++ toString LEVEL_UP_EXP ++ " experience points!"),
         LogEvent.message ("Total experience: " ++ toString (current_exp + LEVEL_UP_EXP))]
      else []
    ⟨r.1, enemy2, total_damage, true, combat_evs ++ r.2.2 ++ evs2⟩
  else
    ⟨a, enemy2, total_damage, false, combat_evs⟩

/-- `attack` called without a logger: updated attacker, updated enemy, and
the returned pair. -/
def attack (a : Character) (enemy : Character) : Character × Character × ℤ × Bool :=
  let r := attackL a enemy false
  ⟨r.1, r.2.1, r.2.2.1, r.2.2.2.1⟩

/-! ## Character variants (character.py lines 166-293)

Each variant only adds one nullable string attribute and one accessor; the
accessor tests the attribute with Python truthiness (`if self.special_ability:`),
under which both `None` and the empty string take the else branch. -/

structure Boss where
  base : Character
  special_ability : Option String
deriving DecidableEq

/-- `Boss.use_special_ability` (character.py lines 198-207). -/
def Boss.use_special_ability (b : Boss) : String :=
  match b.special_ability with
  | some s =>
    if s = "" then b.base.name ++ " has no special ability."
    else b.base.name ++ " uses " ++ s ++ "!"
  | none => b.base.name ++ " has no special ability."

structure Sidekick where
  base : Character
  support_ability : Option String
deriving DecidableEq

/-- `Sidekick.use_support_ability` (character.py lines 241-250). -/
def Sidekick.use_support_ability (sk : Sidekick) : String :=
  match sk.support_ability with
  | some s =>
    if s = "" then sk.base.name ++ " has no support ability."
    else sk.base.name ++ " uses " ++ s ++ "!"
  | none => sk.base.name ++ " has no support ability."

structure Villain where
  base : Character
  evil_deed : Option String
deriving DecidableEq

/-- `Villain.commit_evil_deed` (character.py lines 284-293). -/
def Villain.commit_evil_deed (v : Villain) : String :=
  match v.evil_deed with
  | some s =>
    if s = "" then v.base.name ++ " has no evil deed."
    else v.base.name ++ " commits " ++ s ++ "!"
  | none => v.base.name ++ " has no evil deed."

/-! ## Operation alphabets used to state the sequence/invariant claims -/

/-- A driver-visible operation on one `Inventory`. -/
inductive InvOp where
  | add : Item → InvOp
  | remove : Item → InvOp
  | equipW : Item → InvOp
  | equipA : Item → InvOp
  | useCons : Item → InvOp
deriving DecidableEq

def applyInvOp (inv : Inventory) : InvOp → Inventory
  | InvOp.add it => (add_item inv it).1
  | InvOp.remove it => (remove_item inv it).1
  | InvOp.equipW it => (equip_weapon inv it).1
  | InvOp.equipA it => (equip_armor inv it).1
  | InvOp.useCons it => (use_consumable inv it).1

def applyInvOps (inv : Inventory) : List InvOp → Inventory
  | [] => inv
  | op :: ops => applyInvOps (applyInvOp inv op) ops

/-- The spec's inventory invariant: each equipped reference is null or an
element of the held collection. -/
def equippedHeld (inv : Inventory) : Prop :=
  (∀ w, inv.equipped_weapon = some w → w ∈ inv.items) ∧
  (∀ a, inv.equipped_armor = some a → a ∈ inv.items)

def isWeaponItem (it : Item) : Prop := ∃ z, it.kind = ItemKind.weaponKind z

def isArmorItem (it : Item) : Prop := ∃ z, it.kind = ItemKind.armorKind z

def isConsumableItem (it : Item) : Prop := ∃ s z, it.kind = ItemKind.consumableKind s z

/-- The operation respects the Python type annotations of `Inventory`
(`equip_weapon(weapon: Weapon)`, `equip_armor(armor: Armor)`,
`use_consumable(consumable: Consumable)`); Python does not enforce them at
runtime, so they are a hypothesis on the driver. -/
def wellTypedOp : InvOp → Prop
  | InvOp.equipW it => isWeaponItem it
  | InvOp.equipA it => isArmorItem it
  | InvOp.useCons it => isConsumableItem it
  | _ => True

def isRemoveOp : InvOp → Prop
  | InvOp.remove _ => True
  | _ => False

/-- Auxiliary strengthened invariant: equipped references are held AND have
the kind matching their slot. -/
def invTyped (inv : Inventory) : Prop :=
  (∀ w, inv.equipped_weapon = some w → w ∈ inv.items ∧ isWeaponItem w) ∧
  (∀ a, inv.equipped_armor = some a → a ∈ inv.items ∧ isArmorItem a)

/-- A driver-visible operation acting on one character's state, as named by
claim C6: `set_health`, being the defender of an `attack`, or
`gain_experience`. -/
inductive CharOp where
  | setH : ℤ → CharOp
  | defendedBy : Character → CharOp
  | gainXp : ℤ → CharOp

def applyCharOp (st : Character) : CharOp → Character
  | CharOp.setH h => set_health st h
  | CharOp.defendedBy a => (attack a st).2.1
  | CharOp.gainXp amt => (gain_experience st amt).1

def applyCharOps (st : Character) : List CharOp → Character
  | [] => st
  | op :: ops => applyCharOps (applyCharOp st op) ops

/-- A character whose inventory has been driven through a sequence of
inventory operations (`ch.inventory.add_item(...)` etc.). -/
def withInvOps (a : Character) (ops : List InvOp) : Character :=
  { a with inventory := applyInvOps a.inventory ops }

/-- Combat-and-progression operations on a two-character world:
first attacks second, second attacks first, or either gains experience. -/
inductive GOp where
  | atkFS : GOp
  | atkSF : GOp
  | gainF : ℤ → GOp
  | gainS : ℤ → GOp

/-- The value returned to the driver by one call. -/
inductive RetVal where
  | attackRet : ℤ → Bool → RetVal
  | gainRet : Bool → RetVal
deriving DecidableEq

/-- Run a sequence of `attack`/`gain_experience` calls on a two-character
world, with or without the logger collaborator, collecting every return
value and every emitted log event. -/
def runSeq (logger : Bool) : List GOp → Character × Character →
    (Character × Character) × List RetVal × List LogEvent
  | [], w => ⟨w, [], []⟩
  | GOp.atkFS :: ops, w =>
    let r := attackL w.1 w.2 logger
    let rest := runSeq logger ops ⟨r.1, r.2.1⟩
    ⟨rest.1, RetVal.attackRet r.2.2.1 r.2.2.2.1 :: rest.2.1, r.2.2.2.2 ++ rest.2.2⟩
  | GOp.atkSF :: ops, w =>
    let r := attackL w.2 w.1 logger
    let rest := runSeq logger ops ⟨r.2.1, r.1⟩
    ⟨rest.1, RetVal.attackRet r.2.2.1 r.2.2.2.1 :: rest.2.1, r.2.2.2.2 ++ rest.2.2⟩
  | GOp.gainF amt :: ops, w =>
    let r := gain_experienceL w.1 amt logger
    let rest := runSeq logger ops ⟨r.1, w.2⟩
    ⟨rest.1, RetVal.gainRet r.2.1 :: rest.2.1, r.2.2 ++ rest.2.2⟩
  | GOp.gainS amt :: ops, w =>
    let r := gain_experienceL w.2 amt logger
    let rest := runSeq logger ops ⟨w.1, r.1⟩
    ⟨rest.1, RetVal.gainRet r.2.1 :: rest.2.1, r.2.2 ++ rest.2.2⟩

/-! ## Concrete states used by witnesses and counterexamples -/

/-- The character of the spec's multi-level compounding scenario (also the
test fixture of test_character.py minus the weapon, which plays no role in
`gain_experience`). -/
def heroC : Character := mkCharacter "Hero" 100 10 (some "Test Sword") 5 1 0 10

/-- A defender with 15 health, as in spec §8 property 5. -/
def targetC : Character := mkCharacter "Target" 15 10 none 0 1 0 10

/-- A defender with 100 health. -/
def toughC : Character := mkCharacter "Tough" 100 10 none 0 1 0 10

/-- A character whose health is the first value at which the binary64
computation `int(health * 1.2)` departs from exact floor arithmetic. -/
def bigC : Character := mkCharacter "Big" 3752999689475414 0 none 0 1 100 10

/-- A character constructed with negative health (the constructor does not
clamp). -/
def ghostC : Character := mkCharacter "Ghost" (-5) 10 none 0 1 0 10

def swordItem : Item :=
  { id := 0, name := "Sword", description := "A sharp sword", kind := ItemKind.weaponKind 10 }

def armorItem : Item :=
  { id := 1, name := "Armor", description := "Heavy armor", kind := ItemKind.armorKind 5 }

def potionItem : Item :=
  { id := 2, name := "Healing Potion", description := "Restores health",
    kind := ItemKind.consumableKind "heal" 20 }

/-! ### Basic facts about `rne` -/

theorem rne_intCast (m : ℤ) : rne (m : ℚ) = m := by
  unfold rne
  simp [Int.floor_intCast]

theorem rne_eq_of_abs_lt {r : ℚ} {m : ℤ} (h : |r - (m : ℚ)| < 1/2) : rne r = m := by
  unfold rne
  rcases abs_lt.mp h with ⟨h1, h2⟩
  rcases le_or_lt (m : ℚ) r with hc | hc
  · have hfl : ⌊r⌋ = m := by
      apply Int.floor_eq_iff.mpr
      refine ⟨hc, ?_⟩
      linarith
    rw [hfl, if_pos (by linarith)]
  · have hfl : ⌊r⌋ = m - 1 := by
      apply Int.floor_eq_iff.mpr
      constructor
      · push_cast
        linarith
      · push_cast
        linarith
    have hlt : ¬ (r - (((m - 1 : ℤ)) : ℚ) < 1/2) := by
      push_cast
      linarith
    have hgt : 1/2 < r - (((m - 1 : ℤ)) : ℚ) := by
      push_cast
      linarith
    rw [hfl, if_neg hlt, if_pos hgt]
    omega

theorem rne_abs_le (r : ℚ) : |(rne r : ℚ) - r| ≤ 1/2 := by
  unfold rne
  have h0 : (⌊r⌋ : ℚ) ≤ r := Int.floor_le r
  have h1 : r < (⌊r⌋ : ℚ) + 1 := Int.lt_floor_add_one r
  rcases lt_trichotomy (r - (⌊r⌋ : ℚ)) (1/2) with hf | hf | hf
  · rw [if_pos hf, abs_le]
    constructor <;> linarith
  · have hnlt : ¬ (r - (⌊r⌋ : ℚ) < 1/2) := by rw [hf]; exact lt_irrefl _
    have hngt : ¬ ((1:ℚ)/2 < r - (⌊r⌋ : ℚ)) := by rw [hf]; exact lt_irrefl _
    rw [if_neg hnlt, if_neg hngt]
    rcases ite_eq_or_eq (⌊r⌋ % 2 = 0) ⌊r⌋ (⌊r⌋ + 1) with he | he <;>
      rw [he] <;> rw [abs_le] <;> push_cast <;> constructor <;> linarith
  · have hnlt : ¬ (r - (⌊r⌋ : ℚ) < 1/2) := by linarith
    rw [if_neg hnlt, if_pos hf, abs_le]
    push_cast
    constructor <;> linarith

theorem rne_nonneg {r : ℚ} (h : 0 ≤ r) : 0 ≤ rne r := by
  unfold rne
  have h0 : (0 : ℤ) ≤ ⌊r⌋ := Int.floor_nonneg.mpr h
  rcases lt_trichotomy (r - (⌊r⌋ : ℚ)) (1/2) with hf | hf | hf <;>
    simp [hf, not_lt_of_lt, le_of_lt] <;> split <;> omega

/-! ### Basic facts about `roundToDouble` -/

theorem roundToDouble_pos_eq (q : ℚ) (hq : 0 < q) :
    roundToDouble q
      = ((rne (q / 2 ^ (Int.log 2 q - 52)) : ℤ) : ℚ) * 2 ^ (Int.log 2 q - 52) := by
  have h1 : q ≠ 0 := ne_of_gt hq
  have h2 : ¬ q < 0 := not_lt.mpr hq.le
  simp only [roundToDouble, if_neg h1, abs_of_pos hq, if_neg h2]

theorem roundToDouble_zero : roundToDouble 0 = 0 := by
  simp [roundToDouble]

theorem roundToDouble_nonneg {q : ℚ} (h : 0 ≤ q) : 0 ≤ roundToDouble q := by
  rcases eq_or_lt_of_le h with h0 | h0
  · rw [← h0, roundToDouble_zero]
  · rw [roundToDouble_pos_eq q h0]
    have hupos : (0:ℚ) < 2 ^ (Int.log 2 q - 52) := zpow_pos (by norm_num) _
    have : (0:ℤ) ≤ rne (q / 2 ^ (Int.log 2 q - 52)) :=
      rne_nonneg (le_of_lt (div_pos h0 hupos))
    positivity

theorem two_zpow_log_le {q : ℚ} (hq : 0 < q) : (2:ℚ) ^ (Int.log 2 q) ≤ q := by
  have h := Int.zpow_log_le_self (R := ℚ) (b := 2) (by norm_num) hq
  simpa using h

theorem lt_two_zpow_log_succ (q : ℚ) : q < (2:ℚ) ^ (Int.log 2 q + 1) := by
  have h := Int.lt_zpow_succ_log_self (R := ℚ) (b := 2) (by norm_num) q
  simpa using h

theorem roundToDouble_err (q : ℚ) (hq : 0 < q) :
    |roundToDouble q - q| ≤ q / 2 ^ (53:ℕ) := by
  rw [roundToDouble_pos_eq q hq]
  have hupos : (0:ℚ) < 2 ^ (Int.log 2 q - 52) := zpow_pos (by norm_num) _
  set u : ℚ := 2 ^ (Int.log 2 q - 52) with hu
  have habs : |(rne (q / u) : ℚ) - q / u| ≤ 1/2 := rne_abs_le _
  have hq' : (q / u) * u = q := div_mul_cancel₀ q (ne_of_gt hupos)
  have key : |(rne (q / u) : ℚ) * u - q| = |(rne (q / u) : ℚ) - q / u| * u := by
    calc |(rne (q / u) : ℚ) * u - q| = |((rne (q / u) : ℚ) - q / u) * u| := by
          rw [sub_mul, hq']
      _ = |(rne (q / u) : ℚ) - q / u| * u := by rw [abs_mul, abs_of_pos hupos]
  rw [key]
  have hu_le : u ≤ q / 2 ^ (52:ℕ) := by
    rw [hu, zpow_sub₀ (by norm_num : (2:ℚ) ≠ 0)]
    have h2e : (2:ℚ) ^ (Int.log 2 q) ≤ q := two_zpow_log_le hq
    have h52 : (2:ℚ) ^ (52:ℤ) = 2 ^ (52:ℕ) := by norm_num
    rw [h52]
    exact div_le_div_of_nonneg_right h2e (by positivity) |>.trans_eq rfl
  calc |(rne (q / u) : ℚ) - q / u| * u ≤ (1/2) * (q / 2 ^ (52:ℕ)) := by
        apply mul_le_mul habs hu_le (le_of_lt hupos) (by norm_num)
    _ = q / 2 ^ (53:ℕ) := by ring

theorem roundToDouble_intCast_small (m : ℤ) (h0 : 0 ≤ m) (h1 : m < 2 ^ (53:ℕ)) :
    roundToDouble (m : ℚ) = (m : ℚ) := by
  rcases eq_or_lt_of_le h0 with hz | hp
  · rw [← hz]
    exact roundToDouble_zero
  · have hqpos : (0:ℚ) < (m : ℚ) := by exact_mod_cast hp
    rw [roundToDouble_pos_eq _ hqpos]
    set e : ℤ := Int.log 2 (m : ℚ) with he
    have hle : e ≤ 52 := by
      have hlt : (m : ℚ) < (2:ℚ) ^ ((53:ℤ)) := by
        exact_mod_cast h1
      have := (Int.lt_zpow_iff_log_lt (R := ℚ) (b := 2) (by norm_num) hqpos).mp
        (by simpa using hlt)
      omega
    set k : ℕ := (52 - e).toNat with hk
    have hek : (52 - e : ℤ) = (k : ℤ) := by omega
    have hu : (2:ℚ) ^ (e - 52) = ((2:ℚ) ^ k)⁻¹ := by
      rw [show e - 52 = -(52 - e) by ring, hek, zpow_neg, zpow_natCast]
    have harg : (m : ℚ) / 2 ^ (e - 52) = ((m * 2 ^ k : ℤ) : ℚ) := by
      rw [hu]
      push_cast
      field_simp
    rw [harg, rne_intCast, hu]
    push_cast
    have h2k : ((2:ℚ) ^ k) ≠ 0 := by positivity
    field_simp

theorem pyTrunc_of_nonneg {q : ℚ} (h : 0 ≤ q) : pyTrunc q = ⌊q⌋ :=
  if_neg (not_lt.mpr h)

theorem pyTrunc_intCast (m : ℤ) : pyTrunc ((m : ℤ) : ℚ) = m := by
  unfold pyTrunc
  split
  · rw [show -((m:ℤ):ℚ) = (((-m : ℤ)) : ℚ) by push_cast; ring, Int.floor_intCast]
    ring
  · exact Int.floor_intCast m

theorem fpMul12_nonneg {x : ℤ} (h : 0 ≤ x) : 0 ≤ fpMul12 x := by
  unfold fpMul12
  have h1 : (0:ℚ) ≤ roundToDouble ((x:ℤ):ℚ) :=
    roundToDouble_nonneg (by exact_mod_cast h)
  have hEM : (0:ℚ) ≤ EXP_MULTIPLIER := by norm_num [EXP_MULTIPLIER]
  have h2 : (0:ℚ) ≤ roundToDouble ((x:ℤ):ℚ) * EXP_MULTIPLIER := mul_nonneg h1 hEM
  have h3 : (0:ℚ) ≤ roundToDouble (roundToDouble ((x:ℤ):ℚ) * EXP_MULTIPLIER) :=
    roundToDouble_nonneg h2
  rw [pyTrunc_of_nonneg h3]
  exact Int.floor_nonneg.mpr h3

/-- The central numerical fact: for every stat value `0 ≤ x ≤ 2^48`, the
binary64 computation `int(x * 1.2)` performed by the level-up loop agrees
with the exact rational floor `⌊6x/5⌋`.  (This fails for larger values:
see the counterexample for claim C5.) -/
theorem fpMul12_eq_floor (x : ℤ) (hx0 : 0 ≤ x) (hx1 : x ≤ 2 ^ (48:ℕ)) :
    fpMul12 x = 6 * x / 5 := by
  rcases eq_or_lt_of_le hx0 with hz | hxpos
  · rw [← hz]
    norm_num [fpMul12, roundToDouble_zero, pyTrunc]
  · -- x ≥ 1
    have hx53 : x < 2 ^ (53:ℕ) := by
      calc x ≤ 2 ^ (48:ℕ) := hx1
        _ < 2 ^ (53:ℕ) := by norm_num
    have hinner : roundToDouble ((x:ℤ):ℚ) = ((x:ℤ):ℚ) :=
      roundToDouble_intCast_small x hx0 hx53
    have hfp : fpMul12 x = pyTrunc (roundToDouble ((x:ℚ) * EXP_MULTIPLIER)) := by
      rw [fpMul12, hinner]
    set q : ℚ := (x:ℚ) * EXP_MULTIPLIER with hqdef
    have hEM : EXP_MULTIPLIER = 6/5 - 1 / (5 * 2^(52:ℕ)) := by
      norm_num [EXP_MULTIPLIER]
    have hxq : (1:ℚ) ≤ (x:ℚ) := by exact_mod_cast hxpos
    have hxu : (x:ℚ) ≤ 2^(48:ℕ) := by exact_mod_cast hx1
    have hEMpos : (0:ℚ) < 6/5 - 1 / (5 * 2^(52:ℕ)) := by norm_num
    have hqpos : 0 < q := by
      rw [hqdef, hEM]
      exact mul_pos (lt_of_lt_of_le zero_lt_one hxq) hEMpos
    have hq_eq : q = ((6*x : ℤ):ℚ)/5 - (x:ℚ)/(5 * 2^(52:ℕ)) := by
      rw [hqdef, hEM]
      push_cast
      ring
    have hq_lt : q < 2^(49:ℕ) := by
      have h1 : q ≤ (2^(48:ℕ):ℚ) * (6/5 - 1 / (5 * 2^(52:ℕ))) := by
        rw [hqdef, hEM]
        exact mul_le_mul_of_nonneg_right hxu (le_of_lt hEMpos)
      calc q ≤ (2^(48:ℕ):ℚ) * (6/5 - 1 / (5 * 2^(52:ℕ))) := h1
        _ < 2^(49:ℕ) := by norm_num
    set e : ℤ := Int.log 2 q with he
    have hle : (2:ℚ)^e ≤ q := two_zpow_log_le hqpos
    have hlt : q < (2:ℚ)^(e+1) := lt_two_zpow_log_succ q
    have he48 : e ≤ 48 := by
      have h49 : q < (2:ℚ) ^ ((49:ℤ)) := by
        rw [show ((49:ℤ)) = ((49:ℕ):ℤ) by norm_num, zpow_natCast]
        exact hq_lt
      have := (Int.lt_zpow_iff_log_lt (R := ℚ) (b := 2) (by norm_num) hqpos).mp
        (by simpa using h49)
      omega
    have hepos : (0:ℚ) < 2^e := zpow_pos (by norm_num) e
    by_cases h5 : x % 5 = 0
    · -- Case A: x a multiple of 5, the exact product is the integer 6k
      obtain ⟨k, hk, hmk⟩ : ∃ k, x = 5 * k ∧ 6 * x / 5 = 6 * k :=
        ⟨x/5, by omega, by omega⟩
      have hk1 : (1:ℤ) ≤ k := by omega
      set kk : ℕ := (52 - e).toNat with hkk
      have hek : (52 - e : ℤ) = (kk:ℤ) := by omega
      have hqk : q = 6*(k:ℚ) - (k:ℚ)/2^(52:ℕ) := by
        rw [hq_eq, hk]
        push_cast
        ring
      have hu_inv : ((2:ℚ)^(e-52))⁻¹ = 2^kk := by
        rw [← zpow_natCast (2:ℚ) kk, ← hek, ← zpow_neg]
        congr 1
        ring
      have harg : q / 2^(e-52) = q * 2^kk := by
        rw [div_eq_mul_inv, hu_inv]
      have hpow_id : ((2:ℚ)^kk) / 2^(52:ℕ) = ((2:ℚ)^e)⁻¹ := by
        rw [← zpow_natCast (2:ℚ) kk, ← hek, ← zpow_natCast (2:ℚ) 52,
          ← zpow_sub₀ (by norm_num : (2:ℚ) ≠ 0), ← zpow_neg]
        congr 1
        omega
      have hd : q * 2^kk - ((6*k*2^kk : ℤ):ℚ) = -((k:ℚ) * (2^kk / 2^(52:ℕ))) := by
        rw [hqk]
        push_cast
        ring
      have hklt : (k:ℚ) * ((2:ℚ)^e)⁻¹ < 1/2 := by
        have h5k : (5*(k:ℚ)) ≤ q := by
          rw [hqk]
          have hknn : (0:ℚ) ≤ (k:ℚ) := by exact_mod_cast le_of_lt (by omega : (0:ℤ) < k)
          have : (k:ℚ)/2^(52:ℕ) ≤ k := by
            apply div_le_self hknn
            norm_num
          linarith
        have h2e1 : (2:ℚ)^(e+1) = 2 * 2^e := by
          rw [zpow_add₀ (by norm_num : (2:ℚ) ≠ 0), zpow_one]
          ring
        have hk2e : 5*(k:ℚ) < 2 * 2^e := by
          rw [← h2e1]
          exact lt_of_le_of_lt h5k hlt
        rw [← div_eq_mul_inv, div_lt_iff₀ hepos]
        linarith
      have hrne : rne (q / 2^(e-52)) = 6*k*2^kk := by
        apply rne_eq_of_abs_lt
        rw [harg, hd, abs_neg, abs_of_nonneg, hpow_id]
        · exact hklt
        · rw [hpow_id]
          have hknn : (0:ℚ) ≤ (k:ℚ) := by exact_mod_cast (by omega : (0:ℤ) ≤ k)
          positivity
      have hgrid : ((2:ℚ)^kk) * 2^(e-52) = 1 := by
        rw [← zpow_natCast (2:ℚ) kk, ← hek, ← zpow_add₀ (by norm_num : (2:ℚ) ≠ 0)]
        norm_num
      have hR : roundToDouble q = ((6*k : ℤ):ℚ) := by
        rw [roundToDouble_pos_eq q hqpos, ← he, hrne]
        push_cast
        calc (6*(k:ℚ)*2^kk) * 2^(e-52) = (6*(k:ℚ)) * ((2^kk) * 2^(e-52)) := by ring
          _ = 6*(k:ℚ) := by rw [hgrid]; ring
      rw [hfp, hR, pyTrunc_intCast, hmk]
    · -- Case B: exact product has fractional part r/5, r ∈ {1,2,3,4}
      set m : ℤ := 6*x/5 with hm
      have hdec : 6*x = 5*m + 6*x%5 ∧ 1 ≤ 6*x%5 ∧ 6*x%5 ≤ 4 := by omega
      have hm1 : (1:ℤ) ≤ m := by omega
      have h6x : ((6*x : ℤ):ℚ) = 5*(m:ℚ) + ((6*x%5 : ℤ):ℚ) := by
        exact_mod_cast congrArg (fun z : ℤ => (z:ℚ)) hdec.1
      have hr1 : (1:ℚ) ≤ ((6*x%5 : ℤ):ℚ) := by exact_mod_cast hdec.2.1
      have hr4 : ((6*x%5 : ℤ):ℚ) ≤ 4 := by exact_mod_cast hdec.2.2
      have hq_lb : (m:ℚ) + 1/5 - 1/80 ≤ q := by
        rw [hq_eq, h6x]
        have hxsmall : (x:ℚ)/(5 * 2^(52:ℕ)) ≤ 1/80 := by
          rw [div_le_iff₀ (by norm_num : (0:ℚ) < 5 * 2^(52:ℕ))]
          calc (x:ℚ) ≤ 2^(48:ℕ) := hxu
            _ ≤ 1/80 * (5 * 2^(52:ℕ)) := by norm_num
        have : (m:ℚ) + 1/5 ≤ (5*(m:ℚ) + ((6*x%5 : ℤ):ℚ))/5 := by
          rw [le_div_iff₀ (by norm_num : (0:ℚ) < 5)]
          linarith
        linarith
      have hq_ub : q ≤ (m:ℚ) + 4/5 := by
        rw [hq_eq, h6x]
        have hxnn : (0:ℚ) ≤ (x:ℚ)/(5 * 2^(52:ℕ)) := by positivity
        have : (5*(m:ℚ) + ((6*x%5 : ℤ):ℚ))/5 ≤ (m:ℚ) + 4/5 := by
          rw [div_le_iff₀ (by norm_num : (0:ℚ) < 5)]
          linarith
        linarith
      have herr := roundToDouble_err q hqpos
      have herr2 : |roundToDouble q - q| ≤ 1/16 := by
        apply le_trans herr
        rw [div_le_iff₀ (by norm_num : (0:ℚ) < 2^(53:ℕ))]
        have h49 : (2^(49:ℕ):ℚ) ≤ 1/16 * 2^(53:ℕ) := by norm_num
        linarith
      have habs := abs_le.mp herr2
      have hRlow : (m:ℚ) < roundToDouble q := by
        have h1 : q - 1/16 ≤ roundToDouble q := by linarith [habs.1]
        linarith
      have hRhigh : roundToDouble q < (m:ℚ) + 1 := by
        have h1 : roundToDouble q ≤ q + 1/16 := by linarith [habs.2]
        linarith
      have hRnn : (0:ℚ) ≤ roundToDouble q := by
        have hm1q : (1:ℚ) ≤ (m:ℚ) := by exact_mod_cast hm1
        linarith
      have hflr : ⌊roundToDouble q⌋ = m := by
        apply Int.floor_eq_iff.mpr
        constructor
        · linarith
        · linarith
      rw [hfp, pyTrunc_of_nonneg hRnn, hflr]

/-! ### The level-up loop: fuel adequacy and basic invariants -/

theorem gainExpLoopF_fuel_irrel (f : ℕ) :
    ∀ (g : ℕ) (st : Character) (l lg : Bool),
      st.experience ≤ (f:ℤ) → st.experience ≤ (g:ℤ) →
      gainExpLoopF f st l lg = gainExpLoopF g st l lg := by
  induction f with
  | zero =>
    intro g st l lg hf hg
    have hf0 : st.experience ≤ 0 := by exact_mod_cast hf
    cases g with
    | zero => rfl
    | succ g2 =>
      have hnc : ¬ LEVEL_UP_EXP ≤ st.experience := by
        simp only [LEVEL_UP_EXP]
        omega
      simp only [gainExpLoopF, if_neg hnc]
  | succ f2 ih =>
    intro g st l lg hf hg
    cases g with
    | zero =>
      have hg0 : st.experience ≤ 0 := by exact_mod_cast hg
      have hnc : ¬ LEVEL_UP_EXP ≤ st.experience := by
        simp only [LEVEL_UP_EXP]
        omega
      simp only [gainExpLoopF, if_neg hnc]
    | succ g2 =>
      simp only [gainExpLoopF]
      by_cases hc : LEVEL_UP_EXP ≤ st.experience
      · rw [if_pos hc, if_pos hc]
        have h100 : (100:ℤ) ≤ st.experience := by
          simpa [LEVEL_UP_EXP] using hc
        have hstep : (levelUpStep st).experience = st.experience - 100 := by
          simp [levelUpStep, LEVEL_UP_EXP]
        have hf2 : (levelUpStep st).experience ≤ (f2:ℤ) := by
          rw [hstep]
          push_cast at hf
          omega
        have hg2 : (levelUpStep st).experience ≤ (g2:ℤ) := by
          rw [hstep]
          push_cast at hg
          omega
        rw [ih g2 (levelUpStep st) true lg hf2 hg2]
      · rw [if_neg hc, if_neg hc]

theorem gainExpLoop_done (st : Character) (l lg : Bool) (h : st.experience < LEVEL_UP_EXP) :
    gainExpLoop st l lg = ⟨st, l, []⟩ := by
  unfold gainExpLoop
  cases hf : st.experience.toNat with
  | zero => rfl
  | succ n => simp only [gainExpLoopF, if_neg (not_le.mpr h)]

theorem gainExpLoop_step (st : Character) (l lg : Bool) (h : LEVEL_UP_EXP ≤ st.experience) :
    gainExpLoop st l lg =
      ⟨(gainExpLoop (levelUpStep st) true lg).1,
       (gainExpLoop (levelUpStep st) true lg).2.1,
       (if lg then levelUpMsgs (levelUpStep st) else [])
         ++ (gainExpLoop (levelUpStep st) true lg).2.2⟩ := by
  unfold gainExpLoop
  have h100 : (100:ℤ) ≤ st.experience := by simpa [LEVEL_UP_EXP] using h
  have hfuel : st.experience.toNat = (st.experience.toNat - 1) + 1 := by omega
  rw [hfuel]
  simp only [gainExpLoopF, if_pos h]
  have hstep : (levelUpStep st).experience = st.experience - 100 := by
    simp [levelUpStep, LEVEL_UP_EXP]
  have hirr : gainExpLoopF (st.experience.toNat - 1) (levelUpStep st) true lg
      = gainExpLoopF (levelUpStep st).experience.toNat (levelUpStep st) true lg := by
    apply gainExpLoopF_fuel_irrel
    · rw [hstep]
      omega
    · exact Int.self_le_toNat _
  rw [hirr]

theorem gainExpLoopF_exp_bound (f : ℕ) :
    ∀ (st : Character) (l lg : Bool), 0 ≤ st.experience → st.experience ≤ (f:ℤ) →
      0 ≤ (gainExpLoopF f st l lg).1.experience ∧
      (gainExpLoopF f st l lg).1.experience < 100 := by
  induction f with
  | zero =>
    intro st l lg h0 hf
    have hf0 : st.experience ≤ 0 := by exact_mod_cast hf
    constructor
    · show (0:ℤ) ≤ st.experience
      exact h0
    · show st.experience < 100
      omega
  | succ f2 ih =>
    intro st l lg h0 hf
    simp only [gainExpLoopF]
    by_cases hc : LEVEL_UP_EXP ≤ st.experience
    · rw [if_pos hc]
      have h100 : (100:ℤ) ≤ st.experience := by simpa [LEVEL_UP_EXP] using hc
      have hstep : (levelUpStep st).experience = st.experience - 100 := by
        simp [levelUpStep, LEVEL_UP_EXP]
      refine ih (levelUpStep st) true lg ?_ ?_
      · rw [hstep]
        omega
      · rw [hstep]
        push_cast at hf
        omega
    · rw [if_neg hc]
      simp only [LEVEL_UP_EXP] at hc
      constructor
      · show (0:ℤ) ≤ st.experience
        exact h0
      · show st.experience < 100
        omega

theorem gainExpLoopF_health (f : ℕ) :
    ∀ (st : Character) (l lg : Bool), 0 ≤ st.health →
      0 ≤ (gainExpLoopF f st l lg).1.health := by
  induction f with
  | zero =>
    intro st l lg h
    exact h
  | succ f2 ih =>
    intro st l lg h
    simp only [gainExpLoopF]
    by_cases hc : LEVEL_UP_EXP ≤ st.experience
    · rw [if_pos hc]
      refine ih (levelUpStep st) true lg ?_
      show (0:ℤ) ≤ fpMul12 st.health
      exact fpMul12_nonneg h
    · rw [if_neg hc]
      exact h

theorem gainExpLoopF_logger (f : ℕ) :
    ∀ (st : Character) (l : Bool),
      (gainExpLoopF f st l true).1 = (gainExpLoopF f st l false).1 ∧
      (gainExpLoopF f st l true).2.1 = (gainExpLoopF f st l false).2.1 := by
  induction f with
  | zero =>
    intro st l
    exact ⟨rfl, rfl⟩
  | succ f2 ih =>
    intro st l
    simp only [gainExpLoopF]
    by_cases hc : LEVEL_UP_EXP ≤ st.experience
    · rw [if_pos hc, if_pos hc]
      exact ih (levelUpStep st) true
    · rw [if_neg hc, if_neg hc]
      exact ⟨rfl, rfl⟩

/-! ### `gain_experience`: derived facts -/

theorem gain_experienceL_of_neg (st : Character) (amount : ℤ) (lg : Bool) (h : amount < 0) :
    gain_experienceL st amount lg
      = ⟨st, false,
          if lg then
            [LogEvent.message (st.name ++ " attempted to gain negative experience. Ignoring.")]
          else []⟩ := by
  unfold gain_experienceL
  rw [if_pos h]

theorem gain_experienceL_exp_bound (st : Character) (amount : ℤ) (lg : Bool)
    (h0 : 0 ≤ st.experience) (ha : 0 ≤ amount) :
    0 ≤ (gain_experienceL st amount lg).1.experience ∧
    (gain_experienceL st amount lg).1.experience < 100 := by
  unfold gain_experienceL
  rw [if_neg (not_lt.mpr ha)]
  exact gainExpLoopF_exp_bound _ _ false lg (add_nonneg h0 ha) (Int.self_le_toNat _)

theorem gain_experienceL_health (st : Character) (amount : ℤ) (lg : Bool)
    (h : 0 ≤ st.health) :
    0 ≤ (gain_experienceL st amount lg).1.health := by
  unfold gain_experienceL
  by_cases hneg : amount < 0
  · rw [if_pos hneg]
    exact h
  · rw [if_neg hneg]
    exact gainExpLoopF_health _ _ false lg h

theorem gain_experienceL_logger (st : Character) (amount : ℤ) :
    (gain_experienceL st amount true).1 = (gain_experienceL st amount false).1 ∧
    (gain_experienceL st amount true).2.1 = (gain_experienceL st amount false).2.1 := by
  unfold gain_experienceL
  by_cases hneg : amount < 0
  · rw [if_pos hneg, if_pos hneg]
    exact ⟨rfl, rfl⟩
  · rw [if_neg hneg, if_neg hneg]
    exact gainExpLoopF_logger _ _ false

/-! ### `set_health` and `attack`: derived facts -/

theorem set_health_health (c : Character) (h : ℤ) :
    (set_health c h).health = max h 0 := by
  unfold set_health
  split
  · show (0:ℤ) = max h 0
    omega
  · show h = max h 0
    omega

theorem set_health_nonneg (c : Character) (h : ℤ) : 0 ≤ (set_health c h).health := by
  rw [set_health_health]
  omega

theorem attack_of_kill (a d : Character)
    (h : d.health - (a.damage + weaponDamage a.weapon) ≤ 0) :
    attack a d = ⟨(gain_experience a LEVEL_UP_EXP).1,
                  set_health d (d.health - (a.damage + weaponDamage a.weapon)),
                  a.damage + weaponDamage a.weapon, true⟩ := by
  have hcond : get_health (set_health d (get_health d - (a.damage + weaponDamage a.weapon))) ≤ 0 := by
    unfold get_health set_health
    split
    · show (0:ℤ) ≤ 0
      omega
    · show d.health - (a.damage + weaponDamage a.weapon) ≤ 0
      exact h
  unfold attack attackL gain_experience
  simp only [decide_eq_true_eq, if_pos hcond]
  rfl

theorem attack_of_surv (a d : Character)
    (h : 0 < d.health - (a.damage + weaponDamage a.weapon)) :
    attack a d = ⟨a, set_health d (d.health - (a.damage + weaponDamage a.weapon)),
                  a.damage + weaponDamage a.weapon, false⟩ := by
  have hval : get_health (set_health d (get_health d - (a.damage + weaponDamage a.weapon)))
      = d.health - (a.damage + weaponDamage a.weapon) := by
    unfold get_health set_health
    split
    · omega
    · rfl
  have hcond : ¬ get_health (set_health d (get_health d - (a.damage + weaponDamage a.weapon))) ≤ 0 := by
    rw [hval]
    omega
  unfold attack attackL
  simp only [decide_eq_true_eq, if_neg hcond]
  rfl

theorem attackL_ret_damage (a d : Character) (lg : Bool) :
    (attackL a d lg).2.2.1 = a.damage + weaponDamage a.weapon := by
  simp only [attackL]
  split <;> rfl

theorem attackL_logger (a d : Character) :
    (attackL a d true).1 = (attackL a d false).1 ∧
    (attackL a d true).2.1 = (attackL a d false).2.1 ∧
    (attackL a d true).2.2.1 = (attackL a d false).2.2.1 ∧
    (attackL a d true).2.2.2.1 = (attackL a d false).2.2.2.1 := by
  unfold attackL
  by_cases hb : get_health (set_health d (get_health d - (a.damage + weaponDamage a.weapon))) ≤ 0
  · simp only [decide_eq_true_eq, if_pos hb]
    exact ⟨(gain_experienceL_logger a LEVEL_UP_EXP).1, trivial, trivial, trivial⟩
  · simp only [decide_eq_true_eq, if_neg hb]
    exact ⟨trivial, trivial, trivial, trivial⟩

theorem attack_defender_health_nonneg (a d : Character) :
    0 ≤ (attack a d).2.1.health := by
  simp only [attack, attackL]
  split
  · exact set_health_nonneg _ _
  · exact set_health_nonneg _ _

theorem attack_attacker_health (a d : Character) (h : 0 ≤ a.health) :
    0 ≤ (attack a d).1.health := by
  simp only [attack, attackL]
  split
  · exact gain_experienceL_health _ _ _ h
  · exact h

/-! ## Claim theorems -/

/-- Concrete values of the stat update, via `fpMul12_eq_floor`. -/
theorem fpMul12_100 : fpMul12 100 = 120 := by
  have h := fpMul12_eq_floor 100 (by norm_num) (by norm_num)
  omega

theorem fpMul12_120 : fpMul12 120 = 144 := by
  have h := fpMul12_eq_floor 120 (by norm_num) (by norm_num)
  omega

theorem fpMul12_10 : fpMul12 10 = 12 := by
  have h := fpMul12_eq_floor 10 (by norm_num) (by norm_num)
  omega

theorem fpMul12_12 : fpMul12 12 = 14 := by
  have h := fpMul12_eq_floor 12 (by norm_num) (by norm_num)
  omega

/-- C1: starting from level 1, health 100, damage 10, experience 0, a single
`gain_experience(250)` call returns `true` and leaves level 3, experience 50,
health 144 and damage 14: the 100-point threshold is consumed twice by the
while-loop and the 1.2 growth (with floor) is applied twice, independently,
to health and to damage. -/
theorem c1_multi_level_compounding :
    (gain_experience heroC 250).2 = true ∧
    (gain_experience heroC 250).1.level = 3 ∧
    (gain_experience heroC 250).1.experience = 50 ∧
    (gain_experience heroC 250).1.health = 144 ∧
    (gain_experience heroC 250).1.damage = 14 := by
  have hloop : gainExpLoop { heroC with experience := heroC.experience + 250 } false false
      = ⟨{ heroC with experience := 50, level := 3, health := 144, damage := 14 }, true, []⟩ := by
    rw [gainExpLoop_step _ _ _ (by decide)]
    rw [gainExpLoop_step _ _ _ (by decide)]
    rw [gainExpLoop_done _ _ _ (by decide)]
    simp only [levelUpStep, LEVEL_UP_EXP, heroC, mkCharacter, mkInventory]
    norm_num [fpMul12_100, fpMul12_120, fpMul12_10, fpMul12_12]
  have hrun : gain_experience heroC 250
      = ⟨{ heroC with experience := 50, level := 3, health := 144, damage := 14 }, true⟩ := by
    unfold gain_experience gain_experienceL
    rw [if_neg (by norm_num : ¬ (250:ℤ) < 0)]
    simp only [hloop]
  rw [hrun]
  refine ⟨rfl, rfl, rfl, rfl, rfl⟩

/-- C2: if a character's experience is non-negative then after
`gain_experience(amount)` with a non-negative amount the experience lies in
`[0, 100)`; and since negative amounts are rejected unchanged, the bound
`0 ≤ experience < 100` is preserved by every `gain_experience` call once it
holds. -/
theorem c2_experience_bound (st : Character) (amount : ℤ) :
    (0 ≤ st.experience → 0 ≤ amount →
      0 ≤ (gain_experience st amount).1.experience ∧
      (gain_experience st amount).1.experience < 100) ∧
    (0 ≤ st.experience → st.experience < 100 →
      0 ≤ (gain_experience st amount).1.experience ∧
      (gain_experience st amount).1.experience < 100) := by
  constructor
  · intro h0 ha
    exact gain_experienceL_exp_bound st amount false h0 ha
  · intro h0 hb
    by_cases hneg : amount < 0
    · unfold gain_experience
      rw [gain_experienceL_of_neg st amount false hneg]
      exact ⟨h0, hb⟩
    · exact gain_experienceL_exp_bound st amount false h0 (by omega)

theorem c2_witness :
    0 ≤ (gain_experience heroC 250).1.experience ∧
    (gain_experience heroC 250).1.experience < 100 :=
  (c2_experience_bound heroC 250).1 (by decide) (by norm_num)

/-- C4: for every character and every negative amount, `gain_experience`
returns `false` and leaves the character state (experience, level, health,
damage) exactly as it was: a no-op apart from an optional log line. -/
theorem c4_negative_rejection (st : Character) (amount : ℤ) (h : amount < 0) :
    gain_experience st amount = ⟨st, false⟩ := by
  unfold gain_experience
  rw [gain_experienceL_of_neg st amount false h]

theorem c4_witness :
    (-10 : ℤ) < 0 ∧ gain_experience heroC (-10) = ⟨heroC, false⟩ :=
  ⟨by norm_num, c4_negative_rejection heroC (-10) (by norm_num)⟩

/-- C3: for every `attack(attacker, defender)` call, if the defender's
health minus `total_damage` is ≤ 0 then the call returns
`(total_damage, true)`, the defender's health becomes exactly 0, and the
attacker's new state is exactly the result of `gain_experience(100)` (so the
100-XP award is routed through the level-up rollover), regardless of
overkill or of the defender's prior level; if the defender survives, the
call returns `(total_damage, false)` and the attacker is unchanged. -/
theorem c3_attack_semantics (a d : Character) :
    (d.health - (a.damage + weaponDamage a.weapon) ≤ 0 →
      (attack a d).2.2.1 = a.damage + weaponDamage a.weapon ∧
      (attack a d).2.2.2 = true ∧
      (attack a d).2.1.health = 0 ∧
      (attack a d).1 = (gain_experience a 100).1) ∧
    (0 < d.health - (a.damage + weaponDamage a.weapon) →
      (attack a d).2.2.1 = a.damage + weaponDamage a.weapon ∧
      (attack a d).2.2.2 = false ∧
      (attack a d).1 = a) := by
  constructor
  · intro h
    rw [attack_of_kill a d h]
    refine ⟨rfl, rfl, ?_, rfl⟩
    rw [set_health_health]
    omega
  · intro h
    rw [attack_of_surv a d h]
    exact ⟨rfl, rfl, rfl⟩

theorem c3_witness :
    (attack heroC targetC).2.2.1 = 15 ∧
    (attack heroC targetC).2.2.2 = true ∧
    (attack heroC targetC).2.1.health = 0 ∧
    (attack heroC targetC).1 = (gain_experience heroC 100).1 := by
  have h := (c3_attack_semantics heroC targetC).1 (by decide)
  refine ⟨?_, h.2.1, h.2.2.1, h.2.2.2⟩
  rw [h.1]
  decide

/-- C5 (amended): on an iteration of the level-up loop, for every prior stat
value `0 ≤ x ≤ 2^48` the new health and damage equal the exact mathematical
floor of `x * 1.2`, i.e. `⌊6x/5⌋`; beyond that range the binary64
arithmetic departs from the exact floor (see the counterexample). -/
theorem c5_floor_growth (st : Character)
    (hh0 : 0 ≤ st.health) (hh1 : st.health ≤ 2^(48:ℕ))
    (hd0 : 0 ≤ st.damage) (hd1 : st.damage ≤ 2^(48:ℕ)) :
    (levelUpStep st).health = 6 * st.health / 5 ∧
    (levelUpStep st).damage = 6 * st.damage / 5 := by
  constructor
  · show fpMul12 st.health = 6 * st.health / 5
    exact fpMul12_eq_floor _ hh0 hh1
  · show fpMul12 st.damage = 6 * st.damage / 5
    exact fpMul12_eq_floor _ hd0 hd1

theorem c5_witness :
    (levelUpStep heroC).health = 6 * heroC.health / 5 ∧
    (levelUpStep heroC).damage = 6 * heroC.damage / 5 :=
  c5_floor_growth heroC (by decide) (by decide) (by decide) (by decide)

/-- The concrete binary64 evaluation at the first stat value where
`int(x * 1.2)` and `⌊6x/5⌋` differ: `1.2` is not exactly representable, the
product `3752999689475414 * 1.2` rounds up across the integer boundary, and
`int` then yields `⌊6x/5⌋ + 1`. -/
theorem fpMul12_big : fpMul12 3752999689475414 = 4503599627370497 := by
  have hinner : roundToDouble ((3752999689475414 : ℤ) : ℚ) = ((3752999689475414 : ℤ) : ℚ) :=
    roundToDouble_intCast_small _ (by norm_num) (by norm_num)
  set q : ℚ := ((3752999689475414 : ℤ) : ℚ) * EXP_MULTIPLIER with hq
  have hqval : q = 20282409603651673276227015287330 / 4503599627370496 := by
    rw [hq, EXP_MULTIPLIER]
    norm_num
  have hqpos : 0 < q := by
    rw [hqval]
    norm_num
  have hlog : Int.log 2 q = 52 := by
    have h1 : (2:ℚ) ^ ((52:ℤ)) ≤ q := by
      rw [hqval]
      norm_num
    have h2 : q < (2:ℚ) ^ ((53:ℤ)) := by
      rw [hqval]
      norm_num
    have hl1 := (Int.zpow_le_iff_le_log (R := ℚ) (b := 2) (by norm_num) hqpos).mp (by simpa using h1)
    have hl2 := (Int.lt_zpow_iff_log_lt (R := ℚ) (b := 2) (by norm_num) hqpos).mp (by simpa using h2)
    omega
  have hrneq : rne q = 4503599627370497 := by
    apply rne_eq_of_abs_lt
    rw [hqval]
    rw [abs_lt]
    constructor <;> norm_num
  have hfinal : roundToDouble q = ((4503599627370497 : ℤ) : ℚ) := by
    rw [roundToDouble_pos_eq q hqpos, hlog]
    norm_num
    rw [hrneq]
    norm_num
  rw [fpMul12, hinner, ← hq, hfinal, pyTrunc_intCast]

/-- C5 (counterexample): at health `3752999689475414` (with experience 100,
so the loop runs exactly once on a 0-XP gain) the level-up iteration sets
health to `4503599627370497`, while the exact floor `⌊6x/5⌋` is
`4503599627370496`: the claim "the new health equals the exact mathematical
floor of (old health × 1.2) for every non-negative prior value" is false. -/
theorem c5_counterexample :
    (gain_experience bigC 0).1.health ≠ 6 * bigC.health / 5 ∧
    (gain_experience bigC 0).1.health = 4503599627370497 ∧
    6 * bigC.health / 5 = 4503599627370496 := by
  have hloop : gainExpLoop { bigC with experience := bigC.experience + 0 } false false
      = ⟨{ bigC with experience := 0, level := 2, health := fpMul12 bigC.health, damage := fpMul12 bigC.damage }, true, []⟩ := by
    rw [gainExpLoop_step _ _ _ (by decide)]
    rw [gainExpLoop_done _ _ _ (by decide)]
    simp only [levelUpStep, LEVEL_UP_EXP]
    norm_num
    constructor <;> decide
  have hrun : (gain_experience bigC 0).1.health = fpMul12 bigC.health := by
    unfold gain_experience gain_experienceL
    rw [if_neg (by norm_num : ¬ (0:ℤ) < 0)]
    simp only [hloop]
  have hbig : fpMul12 bigC.health = 4503599627370497 := by
    have : bigC.health = 3752999689475414 := by decide
    rw [this, fpMul12_big]
  refine ⟨?_, ?_, ?_⟩
  · rw [hrun, hbig]
    decide
  · rw [hrun, hbig]
  · decide

/-- Health stays non-negative under any sequence of the operations named by
claim C6, provided it starts non-negative. -/
theorem applyCharOps_health (ops : List CharOp) :
    ∀ st : Character, 0 ≤ st.health → 0 ≤ (applyCharOps st ops).health := by
  induction ops with
  | nil =>
    intro st h
    exact h
  | cons op rest ih =>
    intro st h
    apply ih
    cases op with
    | setH v => exact set_health_nonneg st v
    | defendedBy a => exact attack_defender_health_nonneg a st
    | gainXp amt => exact gain_experienceL_health st amt false h

/-- C6 (amended): `set_health(h)` stores exactly `max(h, 0)`, and
`get_health` stays ≥ 0 across any sequence of `set_health`, attack-as-
defender and `gain_experience` operations once it is non-negative — but the
constructor does not clamp, so a negative construction argument violates the
bound (see the counterexample). -/
theorem c6_health_clamped (st : Character) (h0 : ℤ) (ops : List CharOp) :
    (set_health st h0).health = max h0 0 ∧
    (0 ≤ st.health → 0 ≤ get_health (applyCharOps st ops)) :=
  ⟨set_health_health st h0, fun h => applyCharOps_health ops st h⟩

theorem c6_witness :
    (set_health heroC (-7)).health = max (-7) 0 ∧
    0 ≤ get_health (applyCharOps heroC [CharOp.setH 3, CharOp.gainXp 250]) :=
  ⟨(c6_health_clamped heroC (-7) [CharOp.setH 3, CharOp.gainXp 250]).1,
   (c6_health_clamped heroC (-7) [CharOp.setH 3, CharOp.gainXp 250]).2 (by decide)⟩

/-- C6 (counterexample): `Character.__init__` stores the health argument
without clamping, so a character constructed with health `-5` reports a
negative `get_health` — the claim's "immediately after construction with any
integer health argument" part is false. -/
theorem c6_counterexample : ¬ (0 ≤ get_health ghostC) := by decide

/-- The strengthened inventory invariant is preserved by every well-typed
non-`remove_item` operation. -/
theorem invTyped_preserved (inv : Inventory) (op : InvOp)
    (hw : wellTypedOp op) (hnr : ¬ isRemoveOp op) (h : invTyped inv) :
    invTyped (applyInvOp inv op) := by
  cases op with
  | add it =>
    show invTyped (add_item inv it).1
    unfold add_item
    split
    · exact h
    · constructor
      · intro w hwg
        obtain ⟨hmem, hk⟩ := h.1 w hwg
        exact ⟨List.mem_append_left _ hmem, hk⟩
      · intro a hag
        obtain ⟨hmem, hk⟩ := h.2 a hag
        exact ⟨List.mem_append_left _ hmem, hk⟩
  | remove it => exact absurd trivial hnr
  | equipW it =>
    show invTyped (equip_weapon inv it).1
    unfold equip_weapon
    split
    · next hmem =>
      constructor
      · intro w hwg
        have hwi : it = w := Option.some.inj hwg
        subst hwi
        exact ⟨hmem, hw⟩
      · intro a hag
        exact h.2 a hag
    · exact h
  | equipA it =>
    show invTyped (equip_armor inv it).1
    unfold equip_armor
    split
    · next hmem =>
      constructor
      · intro w hwg
        exact h.1 w hwg
      · intro a hag
        have hai : it = a := Option.some.inj hag
        subst hai
        exact ⟨hmem, hw⟩
    · exact h
  | useCons it =>
    show invTyped (use_consumable inv it).1
    unfold use_consumable
    split
    · constructor
      · intro w hwg
        obtain ⟨hmem, hk⟩ := h.1 w hwg
        have hne : w ≠ it := by
          intro he
          obtain ⟨z, hz⟩ := hk
          obtain ⟨s, v, hv⟩ := hw
          rw [he, hv] at hz
          exact ItemKind.noConfusion hz
        exact ⟨(List.mem_erase_of_ne hne).mpr hmem, hk⟩
      · intro a hag
        obtain ⟨hmem, hk⟩ := h.2 a hag
        have hne : a ≠ it := by
          intro he
          obtain ⟨z, hz⟩ := hk
          obtain ⟨s, v, hv⟩ := hw
          rw [he, hv] at hz
          exact ItemKind.noConfusion hz
        exact ⟨(List.mem_erase_of_ne hne).mpr hmem, hk⟩
    · exact h

theorem invTyped_preserved_seq (ops : List InvOp) :
    ∀ inv : Inventory, (∀ op ∈ ops, wellTypedOp op ∧ ¬ isRemoveOp op) →
      invTyped inv → invTyped (applyInvOps inv ops) := by
  induction ops with
  | nil =>
    intro inv _ h
    exact h
  | cons op rest ih =>
    intro inv hops h
    have hop := hops op (List.mem_cons_self op rest)
    exact ih (applyInvOp inv op) (fun o ho => hops o (List.mem_cons_of_mem op ho))
      (invTyped_preserved inv op hop.1 hop.2 h)

/-- C7 (amended): starting from a freshly constructed inventory, after every
sequence of `add_item`, `equip_weapon`, `equip_armor` and `use_consumable`
calls that respect the declared parameter types, each equipped slot is null
or an element of the held items; `remove_item` is excluded because removing
an equipped item leaves the equipped reference dangling (see the
counterexample). -/
theorem c7_equipped_held (ms : ℤ) (ops : List InvOp)
    (h : ∀ op ∈ ops, wellTypedOp op ∧ ¬ isRemoveOp op) :
    equippedHeld (applyInvOps (mkInventory ms) ops) := by
  have h0 : invTyped (mkInventory ms) := by
    constructor
    · intro w hw
      exact Option.noConfusion hw
    · intro a ha
      exact Option.noConfusion ha
  have hres := invTyped_preserved_seq ops (mkInventory ms) h h0
  exact ⟨fun w hw => (hres.1 w hw).1, fun a ha => (hres.2 a ha).1⟩

theorem c7_witness :
    equippedHeld (applyInvOps (mkInventory 10) [InvOp.add swordItem, InvOp.equipW swordItem]) := by
  apply c7_equipped_held
  intro op hop
  rcases List.mem_cons.mp hop with h | h
  · subst h
    exact ⟨trivial, fun hf => hf⟩
  · rcases List.mem_cons.mp h with h2 | h2
    · subst h2
      exact ⟨⟨10, rfl⟩, fun hf => hf⟩
    · exact absurd h2 (List.not_mem_nil op)

/-- C7 (counterexample): add a weapon, equip it, then `remove_item` it — the
equipped slot still references the removed weapon, which is no longer among
the held items, so the invariant does not hold after every sequence that
includes `remove_item`. -/
theorem c7_counterexample :
    ¬ equippedHeld (applyInvOps (mkInventory 10)
        [InvOp.add swordItem, InvOp.equipW swordItem, InvOp.remove swordItem]) := by
  have heval : applyInvOps (mkInventory 10)
        [InvOp.add swordItem, InvOp.equipW swordItem, InvOp.remove swordItem]
      = { max_size := 10, items := [], equipped_weapon := some swordItem,
          equipped_armor := none } := by decide
  intro h
  rw [heval] at h
  exact List.not_mem_nil swordItem (h.1 swordItem rfl)

/-- C8: the damage dealt by `attack` is always `attacker.damage` plus the
damage of the attacker's Character-level `weapon` attribute (0 when null),
and no sequence of operations on the attacker's `Inventory` — in particular
`add_item` and `equip_weapon` — changes the damage of a subsequent attack. -/
theorem c8_damage_reads_character_weapon (a d : Character) (ops : List InvOp) :
    (attack a d).2.2.1 = a.damage + weaponDamage a.weapon ∧
    (attack (withInvOps a ops) d).2.2.1 = (attack a d).2.2.1 := by
  have h1 : ∀ a' : Character, (attack a' d).2.2.1 = a'.damage + weaponDamage a'.weapon :=
    fun a' => attackL_ret_damage a' d false
  refine ⟨h1 a, ?_⟩
  rw [h1 (withInvOps a ops), h1 a]
  rfl

/-- C9: running any identical sequence of `attack` / `gain_experience` calls
from identical initial two-character states, once with a logger collaborator
and once without, produces identical final character states (hence identical
health, damage, level and experience for every character involved) and
identical return values from every call. -/
theorem c9_logger_independence (ops : List GOp) (w : Character × Character) :
    (runSeq true ops w).1 = (runSeq false ops w).1 ∧
    (runSeq true ops w).2.1 = (runSeq false ops w).2.1 := by
  induction ops generalizing w with
  | nil => exact ⟨rfl, rfl⟩
  | cons op rest ih =>
    cases op with
    | atkFS =>
      simp only [runSeq]
      obtain ⟨h1, h2, h3, h4⟩ := attackL_logger w.1 w.2
      rw [h1, h2, h3, h4]
      obtain ⟨ih1, ih2⟩ := ih ⟨(attackL w.1 w.2 false).1, (attackL w.1 w.2 false).2.1⟩
      rw [ih1, ih2]
      exact ⟨rfl, rfl⟩
    | atkSF =>
      simp only [runSeq]
      obtain ⟨h1, h2, h3, h4⟩ := attackL_logger w.2 w.1
      rw [h1, h2, h3, h4]
      obtain ⟨ih1, ih2⟩ := ih ⟨(attackL w.2 w.1 false).2.1, (attackL w.2 w.1 false).1⟩
      rw [ih1, ih2]
      exact ⟨rfl, rfl⟩
    | gainF amt =>
      simp only [runSeq]
      obtain ⟨h1, h2⟩ := gain_experienceL_logger w.1 amt
      rw [h1, h2]
      obtain ⟨ih1, ih2⟩ := ih ⟨(gain_experienceL w.1 amt false).1, w.2⟩
      rw [ih1, ih2]
      exact ⟨rfl, rfl⟩
    | gainS amt =>
      simp only [runSeq]
      obtain ⟨h1, h2⟩ := gain_experienceL_logger w.2 amt
      rw [h1, h2]
      obtain ⟨ih1, ih2⟩ := ih ⟨w.1, (gain_experienceL w.2 amt false).1⟩
      rw [ih1, ih2]
      exact ⟨rfl, rfl⟩

/-- C10 (amended): the variant ability accessors are pure functions of the
state; they return the "uses/commits" message exactly when the ability
string attribute is non-null AND non-empty, and the "has no ..." message
when the attribute is null OR the empty string (Python truthiness treats
`""` like `None`, contrary to the claim's "including the empty string"). -/
theorem c10_ability_messages :
    (∀ (b : Boss) (s : String), b.special_ability = some s → s ≠ "" →
      b.use_special_ability = b.base.name ++ " uses " ++ s ++ "!") ∧
    (∀ b : Boss, (b.special_ability = none ∨ b.special_ability = some "") →
      b.use_special_ability = b.base.name ++ " has no special ability.") ∧
    (∀ (sk : Sidekick) (s : String), sk.support_ability = some s → s ≠ "" →
      sk.use_support_ability = sk.base.name ++ " uses " ++ s ++ "!") ∧
    (∀ sk : Sidekick, (sk.support_ability = none ∨ sk.support_ability = some "") →
      sk.use_support_ability = sk.base.name ++ " has no support ability.") ∧
    (∀ (v : Villain) (s : String), v.evil_deed = some s → s ≠ "" →
      v.commit_evil_deed = v.base.name ++ " commits " ++ s ++ "!") ∧
    (∀ v : Villain, (v.evil_deed = none ∨ v.evil_deed = some "") →
      v.commit_evil_deed = v.base.name ++ " has no evil deed.") := by
  refine ⟨?_, ?_, ?_, ?_, ?_, ?_⟩
  · intro b s hs hne
    simp [Boss.use_special_ability, hs, hne]
  · intro b hb
    rcases hb with h | h <;> simp [Boss.use_special_ability, h]
  · intro sk s hs hne
    simp [Sidekick.use_support_ability, hs, hne]
  · intro sk hb
    rcases hb with h | h <;> simp [Sidekick.use_support_ability, h]
  · intro v s hs hne
    simp [Villain.commit_evil_deed, hs, hne]
  · intro v hb
    rcases hb with h | h <;> simp [Villain.commit_evil_deed, h]

theorem c10_witness :
    (Boss.mk heroC (some "Fireball")).use_special_ability = "Hero uses Fireball!" ∧
    (Villain.mk heroC (some "Steal")).commit_evil_deed = "Hero commits Steal!" ∧
    (Sidekick.mk heroC none).use_support_ability = "Hero has no support ability." := by
  refine ⟨?_, ?_, ?_⟩
  · have h := c10_ability_messages.1 (Boss.mk heroC (some "Fireball")) "Fireball" rfl (by decide)
    rw [h]
    decide
  · have h := c10_ability_messages.2.2.2.2.1 (Villain.mk heroC (some "Steal")) "Steal" rfl (by decide)
    rw [h]
    decide
  · have h := c10_ability_messages.2.2.2.1 (Sidekick.mk heroC none) (Or.inl rfl)
    rw [h]
    decide

/-- C10 (counterexample): a Boss whose `special_ability` is the empty string
(non-null) returns the "has no special ability" message, not the "uses"
message — Python's `if self.special_ability:` is a truthiness test, so the
claim's "including the empty string" case is false. -/
theorem c10_counterexample :
    (Boss.mk heroC (some "")).use_special_ability = "Hero has no special ability." ∧
    (Boss.mk heroC (some "")).use_special_ability ≠ "Hero uses !" := by
  constructor
  · decide
  · decide

end RPG
